import Mathlib

/-!
Verification of the Simplifi-IQ repository.

The development shallowly embeds the two Python pipelines of the repository:

* `Task 2/scrape_summarize.py` — the extractive summarizer
  (`simple_extractive_summary`), the URL orchestrator (`summarize_urls`) and
  the `.txt` branch of `read_urls`;
* `analyze_logs.py` / `Task 1/analyze_logs.py` — the log validator and
  aggregator (`analyze`).

Strings are modelled as `List Char`.  Character classes mirror the regexes of
the source for the ASCII range (`\s` → `isPySpace`, `\w` → `isWordChar`).
Network, HTML parsing and cell parsing are external collaborators of the
repository and enter the model as explicit function parameters.
-/

/-! ### Character classes used by the regexes of `scrape_summarize.py` -/

/-- Whitespace class of the regex `\s` (ASCII range). -/
def isPySpace (c : Char) : Bool :=
  c == ' ' || c == '\t' || c == '\n' || c == '\r' || c == '\x0b' || c == '\x0c'

/-- Sentence-terminal punctuation `[.!?]` from the lookbehind of
`re.split(r'(?<=[.!?])\s+', text)`. -/
def isSentEnd (c : Char) : Bool := c == '.' || c == '!' || c == '?'

/-- Word-character class of the regex `\w` (ASCII range). -/
def isWordChar (c : Char) : Bool := c.isAlphanum || c == '_'

/-- First character is sentence-terminal punctuation. -/
def headPunct : List Char → Bool
  | [] => false
  | c :: _ => isSentEnd c

/-- First character is whitespace. -/
def firstWs : List Char → Bool
  | [] => false
  | c :: _ => isPySpace c

/-! ### Sentence splitting: `re.split(r'(?<=[.!?])\s+', text)`

`splitGo` is a structurally recursive scanner (so that concrete inputs reduce
inside the kernel): `acc` is the current sentence, reversed, and `skipping`
records that the scanner is inside the whitespace run of a separator.  A
separator is a maximal whitespace run immediately preceded by `.`, `!` or `?`,
exactly the matches of the Python pattern. -/

def splitGo : List Char → List Char → Bool → List (List Char)
  | [], acc, _ => [acc.reverse]
  | c :: rest, acc, skipping =>
    if skipping && isPySpace c then splitGo rest acc true
    else if isPySpace c && headPunct acc then acc.reverse :: splitGo rest [] true
    else splitGo rest (c :: acc) false

/-- Model of `re.split(r'(?<=[.!?])\s+', text)`. -/
def splitSentences (s : List Char) : List (List Char) :=
  splitGo s [] false

theorem dropWhile_len_le (p : Char → Bool) : ∀ l : List Char, (l.dropWhile p).length ≤ l.length
  | [] => Nat.le_refl _
  | c :: l => by
    rw [List.dropWhile]
    cases p c with
    | true => exact Nat.le_succ_of_le (dropWhile_len_le p l)
    | false => exact Nat.le_refl _

/-- Recursion-friendly reformulation of the same split, used for the proofs;
`splitSentences_eq` below proves it computes the same function. -/
def splitW : List Char → List (List Char)
  | [] => [[]]
  | [c] => [[c]]
  | c :: d :: rest =>
    if isSentEnd c && isPySpace d then
      [c] :: splitW ((d :: rest).dropWhile isPySpace)
    else
      match splitW (d :: rest) with
      | [] => [[c]]
      | s :: ss => (c :: s) :: ss
termination_by s => s.length
decreasing_by
  · exact Nat.lt_succ_of_le (dropWhile_len_le isPySpace (d :: rest))
  · simp

/-! ### Remaining pieces of `simple_extractive_summary` -/

/-- Model of `' '.join(pieces)`. -/
def joinSp : List (List Char) → List Char
  | [] => []
  | [s] => s
  | s :: rest => s ++ ' ' :: joinSp rest

/-- Model of Python `str.strip()`: drop whitespace from both ends. -/
def pyStrip (s : List Char) : List Char :=
  ((s.dropWhile isPySpace).reverse.dropWhile isPySpace).reverse

/-- Model of `str.lower()` (ASCII range). -/
def lowerStr (s : List Char) : List Char := s.map Char.toLower

/-- Scanner for `re.findall(r'\w+', s)`: maximal runs of word characters.
`acc` is the current run, reversed. -/
def wordsGo : List Char → List Char → List (List Char)
  | [], acc => if acc.isEmpty then [] else [acc.reverse]
  | c :: rest, acc =>
    if isWordChar c then wordsGo rest (c :: acc)
    else if acc.isEmpty then wordsGo rest [] else acc.reverse :: wordsGo rest []

/-- Model of `re.findall(r'\w+', s)`. -/
def findWords (s : List Char) : List (List Char) := wordsGo s []

/-- The stopword set of `simple_extractive_summary`. -/
def stopwords : List (List Char) :=
  ["the", "is", "in", "and", "to", "of", "a", "for", "on", "that", "with", "as",
   "are", "was", "it", "at", "by", "an", "be", "this", "or", "from"].map String.data

/-- Model of the frequency-table support:
`[w for w in re.findall(r'\w+', text.lower()) if w not in stopwords and len(w) > 2]`.
`Counter` of this list sends `w` to its count in it, so the table is kept as
the list itself and looked up with `List.count`. -/
def filteredWords (text : List Char) : List (List Char) :=
  (findWords (lowerStr text)).filter (fun w => !stopwords.contains w && decide (2 < w.length))

/-- Sentence score: `sum(freqs.get(w, 0) for w in re.findall(r'\w+', s.lower()))`. -/
def scoreOf (filtered : List (List Char)) (s : List Char) : Nat :=
  ((findWords (lowerStr s)).map (fun w => filtered.count w)).sum

/-- Stable insertion step: `a` is placed behind every earlier element `b` with
`later a b`, and in front of the first other one. -/
def insBy {α : Type} (later : α → α → Bool) (a : α) : List α → List α
  | [] => [a]
  | b :: l => if later a b then b :: insBy later a l else a :: b :: l

/-- Stable insertion sort; with `later a b = (a "strictly worse than" b)` this
is exactly a stable sort, the guarantee of Python `sorted` and the model used
for `pandas.sort_values`. -/
def sortBy {α : Type} (later : α → α → Bool) : List α → List α
  | [] => []
  | a :: l => insBy later a (sortBy later l)

/-- Ordering key of `sorted(sent_scores, key=lambda x: x[0], reverse=True)`:
descending on the score component, stable. -/
def scoreLater (a b : Nat × List Char) : Bool := decide (a.1 < b.1)

/-- The `sent_scores` list of `(score, sentence)` pairs. -/
def sentScores (text : List Char) : List (Nat × List Char) :=
  (splitSentences text).map (fun s => (scoreOf (filteredWords text) s, s))

/-- The `top_set` of the source: sentences of the `max_sentences` best-scoring
pairs (`top = sorted(...)[:max_sentences]`, `top_set = set(t[1] for t in top)`). -/
def topSents (text : List Char) (k : Nat) : List (List Char) :=
  ((sortBy scoreLater (sentScores text)).take k).map Prod.snd

/-- The `ordered` list of the source: `[s for s in sentences if s in top_set]`. -/
def orderedSel (text : List Char) (k : Nat) : List (List Char) :=
  (splitSentences text).filter (fun s => decide (s ∈ topSents text k))

/-- Model of `simple_extractive_summary(text, max_sentences)` from
`Task 2/scrape_summarize.py`; the intermediate values of the source's local
variables are the named definitions above. -/
def simple_extractive_summary (text : List Char) (max_sentences : Nat) : List Char :=
  if text.isEmpty then []
  else if (splitSentences text).length ≤ max_sentences then
    pyStrip (joinSp (splitSentences text))
  else if (filteredWords text).isEmpty then
    pyStrip (joinSp ((splitSentences text).take max_sentences))
  else
    pyStrip (joinSp (orderedSel text max_sentences))

/-! ### Orchestrator `summarize_urls` -/

/-- Output of `extract_text_and_meta` (title, meta description, 800-character
preview, full visible text). -/
structure PageInfo where
  title : List Char
  meta_description : List Char
  text_preview : List Char
  full_text : List Char
deriving DecidableEq

/-- One row of the orchestrator's result list. -/
structure SummaryResult where
  url : List Char
  title : List Char
  meta_description : List Char
  summary : List Char
  notes : List Char
deriving DecidableEq

/-- Python truthiness of an optional string (`None` and `''` are falsy). -/
def truthy : Option (List Char) → Bool
  | none => false
  | some s => !s.isEmpty

def noteFetchFailed : List Char := "fetch_failed".data

def noteGenerated : List Char := "generated_by_gemini".data

def noteFallback : List Char := "gemini_failed_fallback_extractive".data

def noteNoGemini : List Char := "no_gemini_local_extractive".data

/-- The f-string prompt built by `summarize_urls`. -/
def buildPrompt (title meta preview : List Char) : List Char :=
  ("Summarize the following webpage content in 2-3 short sentences. Keep it factual and concise.\n\nTitle: ".data)
    ++ title ++ ("\n\nMeta: ".data) ++ meta ++ ("\n\nContent preview: ".data)
    ++ preview ++ ("\n\nSummary:".data)

/-- Model of `call_gemini_api`: the guard on an absent key or endpoint is the
source's first check; the HTTP round trip behind it is the external
collaborator `gemini`, mapping the prompt to the call's optional result. -/
def call_gemini_api (gemini : List Char → Option (List Char))
    (prompt : List Char) (api_key api_url : Option (List Char)) : Option (List Char) :=
  if !truthy api_key || !truthy api_url then none else gemini prompt

/-- Loop body of `summarize_urls` for a single URL. `fetch` models
`fetch_page` (`None` = failure), `extract` models `extract_text_and_meta`;
`if not html` and `if summary` are Python truthiness tests. -/
def processUrl (fetch : List Char → Option (List Char)) (extract : List Char → PageInfo)
    (gemini : List Char → Option (List Char)) (use_gemini : Bool)
    (gemini_api_key gemini_api_url : Option (List Char)) (url : List Char) : SummaryResult :=
  if !truthy (fetch url) then
    ⟨url, [], [], [], noteFetchFailed⟩
  else
    if use_gemini && truthy gemini_api_key && truthy gemini_api_url then
      if truthy (call_gemini_api gemini
          (buildPrompt (extract ((fetch url).getD [])).title
            (extract ((fetch url).getD [])).meta_description
            (extract ((fetch url).getD [])).text_preview) gemini_api_key gemini_api_url) then
        ⟨url, (extract ((fetch url).getD [])).title,
          (extract ((fetch url).getD [])).meta_description,
          (call_gemini_api gemini
            (buildPrompt (extract ((fetch url).getD [])).title
              (extract ((fetch url).getD [])).meta_description
              (extract ((fetch url).getD [])).text_preview) gemini_api_key
            gemini_api_url).getD [],
          noteGenerated⟩
      else
        ⟨url, (extract ((fetch url).getD [])).title,
          (extract ((fetch url).getD [])).meta_description,
          simple_extractive_summary (extract ((fetch url).getD [])).text_preview 3,
          noteFallback⟩
    else
      ⟨url, (extract ((fetch url).getD [])).title,
        (extract ((fetch url).getD [])).meta_description,
        simple_extractive_summary (extract ((fetch url).getD [])).text_preview 3,
        noteNoGemini⟩

/-- Model of `summarize_urls`: one result per URL, in input order (the loop
has no cross-iteration state, and the `time.sleep` rate limit has no data
effect). -/
def summarize_urls (fetch : List Char → Option (List Char)) (extract : List Char → PageInfo)
    (gemini : List Char → Option (List Char)) (use_gemini : Bool)
    (gemini_api_key gemini_api_url : Option (List Char)) (urls : List (List Char)) :
    List SummaryResult :=
  urls.map (processUrl fetch extract gemini use_gemini gemini_api_key gemini_api_url)

/-! ### Log analyzer (`analyze_logs.py`, `Task 1/analyze_logs.py`) -/

/-- One raw CSV row of the task log. -/
structure RawRecord where
  user : List Char
  task_type : List Char
  start : List Char
  duration_min : List Char
deriving DecidableEq

/-- A dataframe row after the two pandas coercions: `start` parsed
(`NaT` = `none`), `duration_min` numeric (`NaN` = `none`). -/
structure CoRecord where
  user : List Char
  task_type : List Char
  start : Option Nat
  duration_min : Option ℚ
deriving DecidableEq

/-- Coerce one raw row, given the collaborator parsers `pt`
(`pd.to_datetime(·, errors='coerce')`) and `pn`
(`pd.to_numeric(·, errors='coerce')`). -/
def coerceRec (pt : List Char → Option Nat) (pn : List Char → Option ℚ) (r : RawRecord) :
    CoRecord :=
  ⟨r.user, r.task_type, pt r.start, pn r.duration_min⟩

/-- The invalid mask `invalid_timestamp | invalid_duration | negative_duration`;
a NaN duration compares `False` under `< 0`, as in pandas. -/
def isInvalidRec (c : CoRecord) : Bool :=
  c.start.isNone || c.duration_min.isNone || decide (c.duration_min.getD 0 < 0)

/-- Duration of a (valid) coerced row. -/
def durOf (c : CoRecord) : ℚ := c.duration_min.getD 0

/-- Total duration of a list of rows. -/
def sumDur (l : List CoRecord) : ℚ := (l.map durOf).sum

/-- Ascending lexicographic comparison of key strings (pandas `groupby`
emits groups sorted by key). -/
def lexLe : List Char → List Char → Bool
  | [], _ => true
  | _ :: _, [] => false
  | a :: as, b :: bs => if a < b then true else if b < a then false else lexLe as bs

/-- Model of `groupby(key, as_index=False)['duration_min'].sum()`: one row per
distinct key of the given rows, keys sorted ascending, each with the group's
total. -/
def groupSum (key : CoRecord → List Char) (l : List CoRecord) : List (List Char × ℚ) :=
  (sortBy (fun a b => !lexLe a b) ((l.map key).dedup)).map
    (fun u => (u, sumDur (l.filter (fun c => decide (key c = u)))))

/-- Ordering key of `sort_values('total_minutes', ascending=False)`. -/
def totalLater (a b : List Char × ℚ) : Bool := decide (a.2 < b.2)

/-- The ranking step of `analyze`: sort the aggregate rows descending by
`total_minutes` and keep the first 3 (`.head(3)`). -/
def rankTop3 (rows : List (List Char × ℚ)) : List (List Char × ℚ) :=
  (sortBy totalLater rows).take 3

/-- The four outputs of `analyze`. -/
structure AnalysisOut where
  time_per_user : List (List Char × ℚ)
  time_per_task : List (List Char × ℚ)
  top3_tasks : List (List Char × ℚ)
  invalid_rows : List CoRecord
deriving DecidableEq

/-- Model of `analyze` (the common core of `analyze_logs.py` and
`Task 1/analyze_logs.py`): coerce both columns, partition on the invalid
mask, aggregate the valid rows, rank the per-task table. -/
def analyze (pt : List Char → Option Nat) (pn : List Char → Option ℚ)
    (records : List RawRecord) : AnalysisOut :=
  ⟨groupSum (fun c => c.user) ((records.map (coerceRec pt pn)).filter (fun c => !isInvalidRec c)),
   groupSum (fun c => c.task_type) ((records.map (coerceRec pt pn)).filter (fun c => !isInvalidRec c)),
   rankTop3 (groupSum (fun c => c.task_type)
     ((records.map (coerceRec pt pn)).filter (fun c => !isInvalidRec c))),
   (records.map (coerceRec pt pn)).filter isInvalidRec⟩

/-- The valid rows of a run (the rows `analyze` aggregates). -/
def validRows (pt : List Char → Option Nat) (pn : List Char → Option ℚ)
    (records : List RawRecord) : List CoRecord :=
  (records.map (coerceRec pt pn)).filter (fun c => !isInvalidRec c)

/-! ### `read_urls`, `.txt` branch -/

/-- Model of `str.startswith('#')` on a string. -/
def headIsHash : List Char → Bool
  | [] => false
  | c :: _ => c == '#'

/-- Model of the `.txt` branch of `read_urls`, the file given as its list of
lines: `[line.strip() for line in f if line.strip() and not line.strip().startswith('#')]`. -/
def read_urls_txt (lines : List (List Char)) : List (List Char) :=
  lines.filterMap (fun line =>
    if (pyStrip line).isEmpty then none
    else if headIsHash (pyStrip line) then none
    else some (pyStrip line))

/-- No separator occurrence inside a string: no sentence-terminal character
immediately followed by whitespace. -/
def noBoundary : List Char → Bool
  | [] => true
  | [_] => true
  | c :: d :: rest => !(isSentEnd c && isPySpace d) && noBoundary (d :: rest)

/-- Last character is sentence-terminal punctuation. -/
def endsPunct : List Char → Bool
  | [] => false
  | [c] => isSentEnd c
  | _ :: c :: rest => endsPunct (c :: rest)

/-- Last character is whitespace. -/
def endsWs : List Char → Bool
  | [] => false
  | [c] => isPySpace c
  | _ :: c :: rest => endsWs (c :: rest)

/-! ### Concrete instances used by witnesses and counterexamples -/

def exDup : List Char := "dog dog. dog dog. cat.".data

def exDistinct : List Char := "bb. aaa aaa. aaa cc.".data

def exLetters : List Char := "A. B. C. D.".data

def exLead : List Char := " a.".data

def fetchNone : List Char → Option (List Char) := fun _ => none

def fetchSome : List Char → Option (List Char) := fun _ => some ("x".data)

def extractNil : List Char → PageInfo := fun _ => ⟨[], [], [], []⟩

def geminiEmpty : List Char → Option (List Char) := fun _ => some []

def geminiText : List Char → Option (List Char) := fun _ => some ("ok".data)

def ptSample : List Char → Option Nat :=
  fun s => if s = "2024-01-01T10:00".data then some 0 else none

def pnSample : List Char → Option ℚ :=
  fun s =>
    if s = "30".data then some 30
    else if s = "20".data then some 20
    else if s = "-5".data then some (-5) else none

def recBadTs : RawRecord := ⟨"alice".data, "build".data, "bad-date".data, "20".data⟩

/-! ### Theory of the sentence split -/

theorem splitW_ne_nil : ∀ s, splitW s ≠ [] := by
  intro s
  induction s using splitW.induct with
  | case1 => simp [splitW]
  | case2 c => simp [splitW]
  | case3 c d rest h ih => simp [splitW, h]
  | case4 c d rest h hnil ih => exact absurd hnil ih
  | case5 c d rest h s ss hs ih => simp [splitW, h, hs]

theorem splitGo_skip : ∀ s : List Char, splitGo s [] true = splitGo (s.dropWhile isPySpace) [] false := by
  intro s
  induction s with
  | nil => rfl
  | cons c rest ih =>
    by_cases hc : isPySpace c = true
    · simp only [splitGo, hc, List.dropWhile_cons, Bool.and_true, if_true, Bool.true_and, if_pos]
      exact ih
    · simp only [splitGo, List.dropWhile_cons, hc]
      simp [splitGo, hc, headPunct]

theorem sentEnd_not_space {c : Char} (h : isSentEnd c = true) : isPySpace c = false := by
  simp only [isSentEnd, Bool.or_eq_true, beq_iff_eq] at h
  rcases h with (rfl | rfl) | rfl <;> decide

theorem splitW_nil : splitW [] = [[]] := by simp [splitW]

theorem splitW_one (c : Char) : splitW [c] = [[c]] := by simp [splitW]

theorem splitW_bound {c d : Char} {rest : List Char} (h : (isSentEnd c && isPySpace d) = true) :
    splitW (c :: d :: rest) = [c] :: splitW ((d :: rest).dropWhile isPySpace) := by
  simp only [splitW, h, if_true]

theorem splitW_cons {c d : Char} {rest : List Char} {t : List Char} {ts : List (List Char)}
    (h : (isSentEnd c && isPySpace d) = false) (hs : splitW (d :: rest) = t :: ts) :
    splitW (c :: d :: rest) = (c :: t) :: ts := by
  simp only [splitW, h, Bool.false_eq_true, if_false, hs]

theorem splitGo_false_cons (c : Char) (rest acc : List Char) :
    splitGo (c :: rest) acc false =
      if (isPySpace c && headPunct acc) = true then acc.reverse :: splitGo rest [] true
      else splitGo rest (c :: acc) false := by
  simp [splitGo]

theorem splitGo_eq_consW : ∀ s acc, (headPunct acc && firstWs s) = false →
    ∃ t ts, splitW s = t :: ts ∧ splitGo s acc false = (acc.reverse ++ t) :: ts := by
  intro s
  induction s using splitW.induct with
  | case1 =>
    intro acc _
    exact ⟨[], [], splitW_nil, by simp [splitGo]⟩
  | case2 c =>
    intro acc hacc
    refine ⟨[c], [], splitW_one c, ?_⟩
    have hcnd : (isPySpace c && headPunct acc) = false := by
      cases hp : isPySpace c
      · simp
      · have hf : firstWs [c] = true := by simp [firstWs, hp]
        rw [hf, Bool.and_true] at hacc
        simp [hacc]
    rw [splitGo_false_cons, if_neg (by simp [hcnd])]
    simp [splitGo]
  | case3 c d rest h ih =>
    intro acc _
    have hc : isSentEnd c = true := ((Bool.and_eq_true _ _).mp h).1
    have hd : isPySpace d = true := ((Bool.and_eq_true _ _).mp h).2
    have hcws : isPySpace c = false := sentEnd_not_space hc
    obtain ⟨t, ts, hW, hGo⟩ := ih [] (by simp [headPunct])
    refine ⟨[c], t :: ts, ?_, ?_⟩
    · rw [splitW_bound h, hW]
    · rw [splitGo_false_cons, if_neg (by simp [hcws])]
      rw [splitGo_false_cons, if_pos (by simp [hd, headPunct, hc])]
      have hdrop : (d :: rest).dropWhile isPySpace = rest.dropWhile isPySpace := by
        simp [List.dropWhile_cons, hd]
      rw [splitGo_skip, ← hdrop, hGo]
      simp
  | case4 c d rest h hnil ih => exact absurd hnil (splitW_ne_nil _)
  | case5 c d rest h t ts hs ih =>
    intro acc hacc
    have hb : (isSentEnd c && isPySpace d) = false := by
      cases hbb : (isSentEnd c && isPySpace d)
      · rfl
      · exact absurd hbb h
    have hcnd : (isPySpace c && headPunct acc) = false := by
      cases hp : isPySpace c
      · simp
      · have hf : firstWs (c :: d :: rest) = true := by simp [firstWs, hp]
        rw [hf, Bool.and_true] at hacc
        simp [hacc]
    have hjun : (headPunct (c :: acc) && firstWs (d :: rest)) = false := by
      simpa [headPunct, firstWs] using hb
    obtain ⟨t', ts', hW, hGo⟩ := ih (c :: acc) hjun
    rw [hs] at hW
    injection hW with h1 h2
    subst h1
    subst h2
    refine ⟨c :: t, ts, splitW_cons hb hs, ?_⟩
    rw [splitGo_false_cons, if_neg (by simp [hcnd]), hGo]
    simp

theorem splitSentences_eq (s : List Char) : splitSentences s = splitW s := by
  obtain ⟨t, ts, hW, hGo⟩ := splitGo_eq_consW s [] (by simp [headPunct])
  unfold splitSentences
  rw [hGo, hW]
  simp

theorem space_not_sentEnd {c : Char} (h : isPySpace c = true) : isSentEnd c = false := by
  simp only [isPySpace, Bool.or_eq_true, beq_iff_eq] at h
  rcases h with ((((rfl | rfl) | rfl) | rfl) | rfl) | rfl <;> decide

theorem noBoundary_cons₂ (c d : Char) (rest : List Char) :
    noBoundary (c :: d :: rest) = (!(isSentEnd c && isPySpace d) && noBoundary (d :: rest)) := rfl

theorem noBoundary_tail {c : Char} {l : List Char} (h : noBoundary (c :: l) = true) :
    noBoundary l = true := by
  cases l with
  | nil => rfl
  | cons d rest =>
    rw [noBoundary_cons₂, Bool.and_eq_true] at h
    exact h.2

theorem noBoundary_pair {c d : Char} {l : List Char} (h : noBoundary (c :: d :: l) = true) :
    (isSentEnd c && isPySpace d) = false := by
  rw [noBoundary_cons₂, Bool.and_eq_true] at h
  cases hb : (isSentEnd c && isPySpace d)
  · rfl
  · rw [hb] at h
    exact absurd h.1 (by simp)

theorem endsPunct_cons {c : Char} {l : List Char} (h : l ≠ []) :
    endsPunct (c :: l) = endsPunct l := by
  cases l with
  | nil => exact absurd rfl h
  | cons d rest => rfl

theorem endsWs_cons {c : Char} {l : List Char} (h : l ≠ []) :
    endsWs (c :: l) = endsWs l := by
  cases l with
  | nil => exact absurd rfl h
  | cons d rest => rfl

theorem splitW_headFirst (c : Char) (l : List Char) :
    ∃ u ts, splitW (c :: l) = (c :: u) :: ts := by
  cases l with
  | nil => exact ⟨[], [], splitW_one c⟩
  | cons d rest =>
    by_cases h : (isSentEnd c && isPySpace d) = true
    · exact ⟨[], _, splitW_bound h⟩
    · have hb : (isSentEnd c && isPySpace d) = false := by
        cases hbb : (isSentEnd c && isPySpace d)
        · rfl
        · exact absurd hbb h
      cases hs : splitW (d :: rest) with
      | nil => exact absurd hs (splitW_ne_nil _)
      | cons t ts => exact ⟨t, ts, splitW_cons hb hs⟩

theorem splitW_noBoundary : ∀ s, ∀ t ∈ splitW s, noBoundary t = true := by
  intro s
  induction s using splitW.induct with
  | case1 =>
    intro t ht
    rw [splitW_nil, List.mem_singleton] at ht
    subst ht; rfl
  | case2 c =>
    intro t ht
    rw [splitW_one, List.mem_singleton] at ht
    subst ht; rfl
  | case3 c d rest h ih =>
    intro t ht
    rw [splitW_bound h, List.mem_cons] at ht
    rcases ht with rfl | ht
    · rfl
    · exact ih t ht
  | case4 c d rest h hnil ih => exact absurd hnil (splitW_ne_nil _)
  | case5 c d rest h u ts hs ih =>
    intro t ht
    have hb : (isSentEnd c && isPySpace d) = false := by
      cases hbb : (isSentEnd c && isPySpace d)
      · rfl
      · exact absurd hbb h
    rw [splitW_cons hb hs, List.mem_cons] at ht
    rcases ht with rfl | ht
    · obtain ⟨u', ts', hh⟩ := splitW_headFirst d rest
      rw [hs] at hh
      injection hh with h1 h2
      subst h1
      rw [noBoundary_cons₂, Bool.and_eq_true]
      refine ⟨by rw [hb]; rfl, ?_⟩
      exact ih (d :: u') (by rw [hs]; exact List.mem_cons_self _ _)
    · exact ih t (by rw [hs]; exact List.mem_cons_of_mem _ ht)

theorem splitW_of_noBoundary : ∀ s, noBoundary s = true → splitW s = [s] := by
  intro s
  induction s using splitW.induct with
  | case1 => intro _; exact splitW_nil
  | case2 c => intro _; exact splitW_one c
  | case3 c d rest h ih =>
    intro hnb
    rw [noBoundary_pair hnb] at h
    exact absurd h (by simp)
  | case4 c d rest h hnil ih => exact absurd hnil (splitW_ne_nil _)
  | case5 c d rest h u ts hs ih =>
    intro hnb
    have hb : (isSentEnd c && isPySpace d) = false := noBoundary_pair hnb
    have htail : splitW (d :: rest) = [d :: rest] := ih (noBoundary_tail hnb)
    rw [htail] at hs
    injection hs with h1 h2
    subst h1
    subst h2
    exact splitW_cons hb htail

theorem joinSp_cons₂ (x y : List Char) (rest : List (List Char)) :
    joinSp (x :: y :: rest) = x ++ ' ' :: joinSp (y :: rest) := rfl

theorem splitW_append_noBoundary : ∀ x t : List Char, noBoundary (x ++ t.take 1) = true →
    ∃ u ts, splitW t = u :: ts ∧ splitW (x ++ t) = (x ++ u) :: ts := by
  intro x
  induction x with
  | nil =>
    intro t _
    cases hs : splitW t with
    | nil => exact absurd hs (splitW_ne_nil _)
    | cons u ts => exact ⟨u, ts, rfl, by simpa using hs⟩
  | cons c x' ih =>
    intro t hnb
    have hnb' : noBoundary (x' ++ t.take 1) = true := noBoundary_tail hnb
    obtain ⟨u, ts, ht, ha⟩ := ih t hnb'
    cases hxt : x' ++ t with
    | nil =>
      have hx' : x' = [] := (List.append_eq_nil.mp hxt).1
      have ht0 : t = [] := (List.append_eq_nil.mp hxt).2
      subst hx'
      subst ht0
      rw [splitW_nil] at ht
      injection ht with h1 h2
      subst h1
      subst h2
      exact ⟨[], [], splitW_nil, by simpa using splitW_one c⟩
    | cons d w =>
      have hdz : ∃ z, x' ++ t.take 1 = d :: z := by
        cases x' with
        | nil =>
          cases t with
          | nil => simp at hxt
          | cons e w' =>
            simp only [List.nil_append] at hxt
            injection hxt with h1 h2
            subst h1
            exact ⟨[], by simp⟩
        | cons e x'' =>
          injection hxt with h1 h2
          subst h1
          exact ⟨x'' ++ t.take 1, rfl⟩
      obtain ⟨z, hz⟩ := hdz
      have hpair : (isSentEnd c && isPySpace d) = false := by
        have : noBoundary (c :: d :: z) = true := by
          have h0 : (c :: x') ++ t.take 1 = c :: (x' ++ t.take 1) := rfl
          rw [h0, hz] at hnb
          exact hnb
        exact noBoundary_pair this
      rw [hxt] at ha
      refine ⟨u, ts, ht, ?_⟩
      have hmain := splitW_cons hpair ha
      have h0 : (c :: x') ++ t = c :: d :: w := by rw [List.cons_append, hxt]
      rw [h0, hmain]
      simp

theorem splitW_append_sep : ∀ x t : List Char, noBoundary x = true → endsPunct x = true →
    splitW (x ++ ' ' :: t) = x :: splitW (t.dropWhile isPySpace) := by
  intro x
  induction x with
  | nil =>
    intro t _ hp
    exact absurd hp (by simp [endsPunct])
  | cons c x' ih =>
    intro t hnb hp
    cases x' with
    | nil =>
      have hc : isSentEnd c = true := hp
      have hb : (isSentEnd c && isPySpace ' ') = true := by rw [hc]; decide
      have h0 : ([c] ++ ' ' :: t) = c :: ' ' :: t := rfl
      rw [h0, splitW_bound hb]
      congr 1
    | cons e x'' =>
      have hpair : (isSentEnd c && isPySpace e) = false := noBoundary_pair hnb
      have ihh := ih t (noBoundary_tail hnb) hp
      exact splitW_cons hpair ihh

theorem splitW_dropWhile_len : ∀ t : List Char,
    (splitW (t.dropWhile isPySpace)).length ≤ (splitW t).length := by
  intro t
  induction t with
  | nil => simp
  | cons c t' ih =>
    cases hc : isPySpace c with
    | false => rw [List.dropWhile_cons, if_neg (by simp [hc])]
    | true =>
      rw [List.dropWhile_cons, if_pos (by simp [hc])]
      refine le_trans ih ?_
      cases t' with
      | nil =>
        rw [splitW_nil, splitW_one]
        simp
      | cons d w =>
        have hb : (isSentEnd c && isPySpace d) = false := by
          rw [space_not_sentEnd hc]
          rfl
        cases hs : splitW (d :: w) with
        | nil => exact absurd hs (splitW_ne_nil _)
        | cons u ts =>
          rw [splitW_cons hb hs]
          simp

theorem splitW_le_append : ∀ s t : List Char, (splitW s).length ≤ (splitW (s ++ t)).length := by
  intro s
  induction s using splitW.induct with
  | case1 =>
    intro t
    rw [splitW_nil, List.nil_append]
    exact List.length_pos.mpr (splitW_ne_nil t)
  | case2 c =>
    intro t
    rw [splitW_one]
    obtain ⟨u, ts, h⟩ := splitW_headFirst c t
    have h0 : ([c] ++ t) = c :: t := rfl
    rw [h0, h]
    simp
  | case3 c d rest h ih =>
    intro t
    rw [splitW_bound h]
    have h0 : ((c :: d :: rest) ++ t) = c :: d :: (rest ++ t) := rfl
    rw [h0, splitW_bound h]
    simp only [List.length_cons, Nat.add_le_add_iff_right]
    have h1 : (d :: (rest ++ t)) = (d :: rest) ++ t := rfl
    rw [h1, List.dropWhile_append]
    cases he : (List.dropWhile isPySpace (d :: rest)).isEmpty with
    | true =>
      have hnil : List.dropWhile isPySpace (d :: rest) = [] := by
        simpa using he
      rw [hnil]
      simp only [List.isEmpty_nil, if_true, splitW_nil, List.length_singleton]
      exact List.length_pos.mpr (splitW_ne_nil _)
    | false =>
      simp only [Bool.false_eq_true, if_false]
      exact ih t
  | case4 c d rest h hnil ih => exact absurd hnil (splitW_ne_nil _)
  | case5 c d rest h u ts hs ih =>
    intro t
    have hb : (isSentEnd c && isPySpace d) = false := by
      cases hbb : (isSentEnd c && isPySpace d)
      · rfl
      · exact absurd hbb h
    rw [splitW_cons hb hs]
    have h0 : ((c :: d :: rest) ++ t) = c :: d :: (rest ++ t) := rfl
    cases hs2 : splitW (d :: (rest ++ t)) with
    | nil => exact absurd hs2 (splitW_ne_nil _)
    | cons u2 ts2 =>
      rw [h0, splitW_cons hb hs2]
      have hih := ih t
      rw [hs] at hih
      have h1 : ((d :: rest) ++ t) = d :: (rest ++ t) := rfl
      rw [h1, hs2] at hih
      simpa using hih

theorem splitW_pyStrip_len (s : List Char) :
    (splitW (pyStrip s)).length ≤ (splitW s).length := by
  have h1 : s.dropWhile isPySpace
      = pyStrip s ++ ((s.dropWhile isPySpace).reverse.takeWhile isPySpace).reverse := by
    unfold pyStrip
    conv_lhs => rw [← List.reverse_reverse (s.dropWhile isPySpace),
      ← List.takeWhile_append_dropWhile isPySpace (s.dropWhile isPySpace).reverse]
    rw [List.reverse_append]
  calc (splitW (pyStrip s)).length
      ≤ (splitW (pyStrip s ++ ((s.dropWhile isPySpace).reverse.takeWhile isPySpace).reverse)).length :=
        splitW_le_append _ _
    _ = (splitW (s.dropWhile isPySpace)).length := by rw [← h1]
    _ ≤ (splitW s).length := splitW_dropWhile_len s

theorem noBoundary_append_single : ∀ (x : List Char) (c : Char), noBoundary x = true →
    (endsPunct x = false ∨ isPySpace c = false) → noBoundary (x ++ [c]) = true := by
  intro x
  induction x with
  | nil => intro c _ _; rfl
  | cons a x' ih =>
    intro c hnb hor
    cases x' with
    | nil =>
      have hp : (isSentEnd a && isPySpace c) = false := by
        rcases hor with h | h
        · rw [show endsPunct [a] = isSentEnd a from rfl] at h
          rw [h]
          rfl
        · rw [h]
          simp
      rw [show ([a] ++ [c]) = a :: c :: [] from rfl, noBoundary_cons₂, hp]
      rfl
    | cons b x'' =>
      have hp := noBoundary_pair hnb
      have ihh := ih c (noBoundary_tail hnb) (by
        rcases hor with h | h
        · exact Or.inl h
        · exact Or.inr h)
      rw [show ((a :: b :: x'') ++ [c]) = a :: ((b :: x'') ++ [c]) from rfl]
      rw [show (b :: x'') ++ [c] = b :: (x'' ++ [c]) from rfl, noBoundary_cons₂, hp]
      simpa using ihh

theorem firstWs_joinSp : ∀ (y : List Char) (rest : List (List Char)), y ≠ [] →
    firstWs (joinSp (y :: rest)) = firstWs y := by
  intro y rest hy
  cases rest with
  | nil => rfl
  | cons z rest' =>
    rw [joinSp_cons₂]
    cases y with
    | nil => exact absurd rfl hy
    | cons a y' => rfl

theorem dropWhile_of_firstWs_false {l : List Char} (h : firstWs l = false) :
    l.dropWhile isPySpace = l := by
  cases l with
  | nil => rfl
  | cons c l' =>
    have hc : isPySpace c = false := h
    rw [List.dropWhile_cons, if_neg (by simp [hc])]

theorem splitW_joinSp_len : ∀ l : List (List Char), l ≠ [] → (∀ x ∈ l, noBoundary x = true) →
    (splitW (joinSp l)).length ≤ l.length := by
  intro l
  induction l with
  | nil => intro h _; exact absurd rfl h
  | cons x l' ih =>
    intro _ hall
    cases l' with
    | nil =>
      rw [show joinSp [x] = x from rfl, splitW_of_noBoundary x (hall x (by simp))]
    | cons y rest =>
      rw [joinSp_cons₂]
      have hnbx : noBoundary x = true := hall x (by simp)
      have h2 := ih (by simp) (fun z hz => hall z (List.mem_cons_of_mem _ hz))
      cases hep : endsPunct x with
      | true =>
        rw [splitW_append_sep x (joinSp (y :: rest)) hnbx hep]
        simp only [List.length_cons]
        have h1 := splitW_dropWhile_len (joinSp (y :: rest))
        exact Nat.succ_le_succ (le_trans h1 h2)
      | false =>
        have hnb1 : noBoundary (x ++ (' ' :: joinSp (y :: rest)).take 1) = true := by
          rw [show (' ' :: joinSp (y :: rest)).take 1 = [' '] from rfl]
          exact noBoundary_append_single x ' ' hnbx (Or.inl hep)
        obtain ⟨u, ts, ht, ha⟩ := splitW_append_noBoundary x (' ' :: joinSp (y :: rest)) hnb1
        rw [ha]
        have hnb2 : noBoundary ([' '] ++ (joinSp (y :: rest)).take 1) = true := by
          cases hJ : joinSp (y :: rest) with
          | nil => rfl
          | cons j w =>
            rw [show ([' '] ++ (j :: w).take 1) = ' ' :: j :: [] from rfl, noBoundary_cons₂]
            rw [show isSentEnd ' ' = false from by decide]
            rfl
        obtain ⟨u2, ts2, ht2, ha2⟩ := splitW_append_noBoundary [' '] (joinSp (y :: rest)) hnb2
        rw [show ([' '] ++ joinSp (y :: rest)) = ' ' :: joinSp (y :: rest) from rfl] at ha2
        rw [ha2] at ht
        injection ht with hu hts
        subst hts
        rw [ht2] at h2
        simp only [List.length_cons] at h2 ⊢
        omega

theorem splitW_joinSp_exact : ∀ l : List (List Char), l ≠ [] →
    (∀ x ∈ l, noBoundary x = true ∧ x ≠ [] ∧ firstWs x = false) →
    (∀ x ∈ l.dropLast, endsPunct x = true) →
    splitW (joinSp l) = l := by
  intro l
  induction l with
  | nil => intro h _ _; exact absurd rfl h
  | cons x l' ih =>
    intro _ hall hdl
    cases l' with
    | nil =>
      rw [show joinSp [x] = x from rfl]
      exact splitW_of_noBoundary x (hall x (by simp)).1
    | cons y rest =>
      rw [joinSp_cons₂]
      have hx := hall x (by simp)
      have hep : endsPunct x = true :=
        hdl x (show x ∈ x :: (y :: rest).dropLast from List.mem_cons_self _ _)
      rw [splitW_append_sep x (joinSp (y :: rest)) hx.1 hep]
      have hfw : firstWs (joinSp (y :: rest)) = false := by
        rw [firstWs_joinSp y rest (hall y (by simp)).2.1]
        exact (hall y (by simp)).2.2
      rw [dropWhile_of_firstWs_false hfw]
      rw [ih (by simp) (fun z hz => hall z (List.mem_cons_of_mem _ hz))
        (fun z hz => hdl z (show z ∈ x :: (y :: rest).dropLast from List.mem_cons_of_mem _ hz))]

theorem dropWhile_head_false {l : List Char} {e : Char} {w : List Char}
    (h : l.dropWhile isPySpace = e :: w) : isPySpace e = false := by
  have h2 := List.head?_dropWhile_not isPySpace l
  rw [h] at h2
  simpa using h2

theorem splitW_tail_start : ∀ s, ∀ t ∈ (splitW s).tail, t = [] ∨ firstWs t = false := by
  intro s
  induction s using splitW.induct with
  | case1 =>
    intro t ht
    rw [splitW_nil] at ht
    simp at ht
  | case2 c =>
    intro t ht
    rw [splitW_one] at ht
    simp at ht
  | case3 c d rest h ih =>
    intro t ht
    rw [splitW_bound h] at ht
    simp only [List.tail_cons] at ht
    cases hdw : (d :: rest).dropWhile isPySpace with
    | nil =>
      rw [hdw, splitW_nil] at ht
      simp at ht
      exact Or.inl ht
    | cons e w =>
      rw [hdw] at ht ih
      obtain ⟨u, ts, hW⟩ := splitW_headFirst e w
      rw [hW] at ht
      rcases List.mem_cons.mp ht with rfl | htts
      · right
        rw [show firstWs (e :: u) = isPySpace e from rfl]
        exact dropWhile_head_false hdw
      · exact ih t (by rw [hW]; simpa using htts)
  | case4 c d rest h hnil ih => exact absurd hnil (splitW_ne_nil _)
  | case5 c d rest h u ts hs ih =>
    intro t ht
    have hb : (isSentEnd c && isPySpace d) = false := by
      cases hbb : (isSentEnd c && isPySpace d)
      · rfl
      · exact absurd hbb h
    rw [splitW_cons hb hs] at ht
    simp only [List.tail_cons] at ht
    exact ih t (by rw [hs]; simpa using ht)

theorem splitW_dropLast_endsPunct : ∀ s, ∀ t ∈ (splitW s).dropLast, endsPunct t = true := by
  intro s
  induction s using splitW.induct with
  | case1 =>
    intro t ht
    rw [splitW_nil] at ht
    simp at ht
  | case2 c =>
    intro t ht
    rw [splitW_one] at ht
    simp at ht
  | case3 c d rest h ih =>
    intro t ht
    rw [splitW_bound h] at ht
    cases hL : splitW ((d :: rest).dropWhile isPySpace) with
    | nil => exact absurd hL (splitW_ne_nil _)
    | cons a L' =>
      rw [hL, List.dropLast_cons₂] at ht
      rcases List.mem_cons.mp ht with rfl | ht'
      · rw [show endsPunct [c] = isSentEnd c from rfl]
        exact ((Bool.and_eq_true _ _).mp h).1
      · exact ih t (by rw [hL]; exact ht')
  | case4 c d rest h hnil ih => exact absurd hnil (splitW_ne_nil _)
  | case5 c d rest h u ts hs ih =>
    intro t ht
    have hb : (isSentEnd c && isPySpace d) = false := by
      cases hbb : (isSentEnd c && isPySpace d)
      · rfl
      · exact absurd hbb h
    rw [splitW_cons hb hs] at ht
    cases hts : ts with
    | nil =>
      rw [hts] at ht
      simp at ht
    | cons a ts' =>
      rw [hts, List.dropLast_cons₂] at ht
      obtain ⟨u', ts'', hW⟩ := splitW_headFirst d rest
      rw [hs] at hW
      injection hW with h1 h2
      rcases List.mem_cons.mp ht with rfl | ht'
      · have hu : endsPunct (c :: u) = endsPunct u := by
          rw [endsPunct_cons]
          rw [h1]
          simp
        rw [hu]
        refine ih u ?_
        rw [hs, hts, List.dropLast_cons₂]
        exact List.mem_cons_self _ _
      · refine ih t ?_
        rw [hs, hts, List.dropLast_cons₂]
        exact List.mem_cons_of_mem _ ht'

theorem endsWs_of_all_ws : ∀ l : List Char, l ≠ [] → (∀ x ∈ l, isPySpace x = true) →
    endsWs l = true := by
  intro l
  induction l with
  | nil => intro h _; exact absurd rfl h
  | cons a l' ih =>
    intro _ hall
    cases l' with
    | nil => exact hall a (by simp)
    | cons b l'' =>
      rw [endsWs_cons (by simp)]
      exact ih (by simp) (fun x hx => hall x (List.mem_cons_of_mem _ hx))

theorem endsWs_append : ∀ (A B : List Char), B ≠ [] → endsWs (A ++ B) = endsWs B := by
  intro A
  induction A with
  | nil => intro B _; rfl
  | cons a A' ih =>
    intro B hB
    have hne : A' ++ B ≠ [] := by
      intro hcon
      exact hB (List.append_eq_nil.mp hcon).2
    rw [List.cons_append, endsWs_cons hne]
    exact ih B hB

theorem getLast?_cons_of_ne_nil {α : Type} {l : List α} (a : α) (h : l ≠ []) :
    (a :: l).getLast? = l.getLast? := by
  cases l with
  | nil => exact absurd rfl h
  | cons b l' => exact List.getLast?_cons_cons

theorem splitW_getLast : ∀ s, s ≠ [] → endsWs s = false →
    ∀ t, (splitW s).getLast? = some t → t ≠ [] ∧ endsWs t = false := by
  intro s
  induction s using splitW.induct with
  | case1 => intro h; exact absurd rfl h
  | case2 c =>
    intro _ hw t ht
    rw [splitW_one, List.getLast?_singleton] at ht
    injection ht with ht
    subst ht
    exact ⟨by simp, hw⟩
  | case3 c d rest h ih =>
    intro _ hw t ht
    rw [splitW_bound h] at ht
    cases hdw : (d :: rest).dropWhile isPySpace with
    | nil =>
      exfalso
      have hall := List.dropWhile_eq_nil_iff.mp hdw
      have : endsWs (d :: rest) = true := endsWs_of_all_ws _ (by simp) hall
      rw [show endsWs (c :: d :: rest) = endsWs (d :: rest) from rfl, this] at hw
      exact Bool.true_eq_false.mp hw
    | cons e w =>
      have hwdrop : endsWs ((d :: rest).dropWhile isPySpace) = endsWs (d :: rest) := by
        conv_rhs => rw [← List.takeWhile_append_dropWhile isPySpace (d :: rest)]
        rw [endsWs_append _ _ (by rw [hdw]; simp)]
      rw [getLast?_cons_of_ne_nil _ (by rw [hdw]; exact splitW_ne_nil _)] at ht
      refine ih ?_ ?_ t ht
      · rw [hdw]; simp
      · rw [hwdrop]
        rw [show endsWs (c :: d :: rest) = endsWs (d :: rest) from rfl] at hw
        exact hw
  | case4 c d rest h hnil ih => exact absurd hnil (splitW_ne_nil _)
  | case5 c d rest h u ts hs ih =>
    intro _ hw t ht
    have hb : (isSentEnd c && isPySpace d) = false := by
      cases hbb : (isSentEnd c && isPySpace d)
      · rfl
      · exact absurd hbb h
    rw [splitW_cons hb hs] at ht
    have hw' : endsWs (d :: rest) = false := by
      rw [show endsWs (c :: d :: rest) = endsWs (d :: rest) from rfl] at hw
      exact hw
    cases hts : ts with
    | nil =>
      rw [hts, List.getLast?_singleton] at ht
      injection ht with ht
      subst ht
      have hu := ih (by simp) hw' u (by rw [hs, hts, List.getLast?_singleton])
      refine ⟨by simp, ?_⟩
      rw [endsWs_cons hu.1]
      exact hu.2
    | cons a ts' =>
      rw [hts, List.getLast?_cons_cons] at ht
      refine ih (by simp) hw' t ?_
      rw [hs, hts, List.getLast?_cons_cons]
      exact ht

theorem exists_next_of_mem_dropLast {α : Type} : ∀ (l : List α) (x : α), x ∈ l.dropLast →
    ∃ y, [x, y].Sublist l := by
  intro l
  induction l with
  | nil => intro x hx; simp at hx
  | cons a l' ih =>
    intro x hx
    cases l' with
    | nil => simp at hx
    | cons b l'' =>
      rw [List.dropLast_cons₂] at hx
      rcases List.mem_cons.mp hx with rfl | hx'
      · refine ⟨b, ?_⟩
        exact List.Sublist.cons₂ x (List.singleton_sublist.mpr (List.mem_cons_self b l''))
      · obtain ⟨y, hy⟩ := ih x hx'
        exact ⟨y, hy.cons a⟩

theorem mem_dropLast_of_pair_sublist {α : Type} : ∀ (l : List α) (x y : α),
    [x, y].Sublist l → x ∈ l.dropLast := by
  intro l
  induction l with
  | nil => intro x y h; simp at h
  | cons a l' ih =>
    intro x y h
    cases h with
    | cons _ h' =>
      have hx := ih x y h'
      cases l' with
      | nil => simp at h'
      | cons b l'' =>
        rw [List.dropLast_cons₂]
        exact List.mem_cons_of_mem a hx
    | cons₂ _ h' =>
      have hy : y ∈ l' := List.singleton_sublist.mp h'
      cases l' with
      | nil => simp at hy
      | cons b l'' =>
        rw [List.dropLast_cons₂]
        exact List.mem_cons_self _ _

theorem mem_dropLast_or_getLast {α : Type} (l : List α) (h : l ≠ []) (x : α) (hx : x ∈ l) :
    x ∈ l.dropLast ∨ x = l.getLast h := by
  conv at hx => rw [← List.dropLast_append_getLast h]
  rcases List.mem_append.mp hx with h1 | h1
  · exact Or.inl h1
  · exact Or.inr (by simpa using h1)

theorem sentence_nonempty (text : List Char) (hne : text ≠ []) (h2 : endsWs text = false) :
    ∀ t ∈ splitW text, t ≠ [] := by
  intro t ht hteq
  subst hteq
  have hLne : splitW text ≠ [] := splitW_ne_nil text
  rcases mem_dropLast_or_getLast (splitW text) hLne [] ht with hd | hg
  · have := splitW_dropLast_endsPunct text [] hd
    simp [endsPunct] at this
  · have hgl : (splitW text).getLast? = some [] := by
      rw [List.getLast?_eq_getLast _ hLne, ← hg]
    exact (splitW_getLast text hne h2 [] hgl).1 rfl

theorem sentence_start (text : List Char) (hne : text ≠ []) (h1 : firstWs text = false)
    (h2 : endsWs text = false) : ∀ t ∈ splitW text, firstWs t = false := by
  intro t ht
  cases text with
  | nil => exact absurd rfl hne
  | cons c rest =>
    obtain ⟨u, ts, hW⟩ := splitW_headFirst c rest
    rw [hW] at ht
    rcases List.mem_cons.mp ht with rfl | ht'
    · exact h1
    · rcases splitW_tail_start (c :: rest) t (by rw [hW]; simpa using ht') with rfl | hok
      · exact absurd rfl
          (sentence_nonempty (c :: rest) hne h2 [] (by rw [hW]; exact List.mem_cons_of_mem _ ht'))
      · exact hok

theorem firstWs_append_ne {A : List Char} (B : List Char) (h : A ≠ []) :
    firstWs (A ++ B) = firstWs A := by
  cases A with
  | nil => exact absurd rfl h
  | cons a A' => rfl

theorem firstWs_reverse : ∀ l : List Char, firstWs l.reverse = endsWs l := by
  intro l
  induction l with
  | nil => rfl
  | cons a l' ih =>
    cases l' with
    | nil => rfl
    | cons b l'' =>
      rw [show endsWs (a :: b :: l'') = endsWs (b :: l'') from rfl, ← ih]
      rw [List.reverse_cons]
      rw [firstWs_append_ne [a] (by simp)]

theorem pyStrip_id {s : List Char} (h1 : firstWs s = false) (h2 : endsWs s = false) :
    pyStrip s = s := by
  unfold pyStrip
  rw [dropWhile_of_firstWs_false h1]
  have hrev : firstWs s.reverse = false := by rw [firstWs_reverse]; exact h2
  rw [dropWhile_of_firstWs_false hrev, List.reverse_reverse]

theorem joinSp_head_append : ∀ (y : List Char) (rest : List (List Char)),
    ∃ z, joinSp (y :: rest) = y ++ z := by
  intro y rest
  cases rest with
  | nil =>
    refine ⟨[], ?_⟩
    rw [List.append_nil]
    exact rfl
  | cons z rest' => exact ⟨' ' :: joinSp (z :: rest'), rfl⟩

theorem endsPunct_not_endsWs : ∀ t : List Char, endsPunct t = true → endsWs t = false := by
  intro t
  induction t with
  | nil => intro h; simp [endsPunct] at h
  | cons a t' ih =>
    intro h
    cases t' with
    | nil => exact sentEnd_not_space h
    | cons b t'' =>
      rw [endsWs_cons (by simp)]
      exact ih h

theorem joinSp_endsWs : ∀ (l : List (List Char)) (h : l ≠ []), (∀ x ∈ l, x ≠ []) →
    endsWs (joinSp l) = endsWs (l.getLast h) := by
  intro l
  induction l with
  | nil => intro h; exact absurd rfl h
  | cons x l' ih =>
    intro hne hall
    cases l' with
    | nil =>
      rw [show joinSp [x] = x from rfl]
      rfl
    | cons y rest =>
      rw [joinSp_cons₂]
      obtain ⟨z, hz⟩ := joinSp_head_append y rest
      have hJne : joinSp (y :: rest) ≠ [] := by
        rw [hz]
        intro hcon
        exact hall y (by simp) (List.append_eq_nil.mp hcon).1
      rw [endsWs_append _ _ (List.cons_ne_nil _ _), endsWs_cons hJne]
      rw [ih (List.cons_ne_nil _ _) (fun w hw => hall w (List.mem_cons_of_mem _ hw))]
      exact congrArg endsWs (List.getLast_cons (List.cons_ne_nil _ _)).symm

theorem summary_sel_splits {text : List Char} (hne : text ≠ []) (h1 : firstWs text = false)
    (h2 : endsWs text = false) (sel : List (List Char)) (hsub : sel.Sublist (splitW text))
    (hsel : sel ≠ []) : splitW (pyStrip (joinSp sel)) = sel := by
  have hall : ∀ x ∈ sel, noBoundary x = true ∧ x ≠ [] ∧ firstWs x = false := fun x hx =>
    ⟨splitW_noBoundary text x (hsub.subset hx),
     sentence_nonempty text hne h2 x (hsub.subset hx),
     sentence_start text hne h1 h2 x (hsub.subset hx)⟩
  have hdl : ∀ x ∈ sel.dropLast, endsPunct x = true := by
    intro x hx
    obtain ⟨y, hy⟩ := exists_next_of_mem_dropLast sel x hx
    exact splitW_dropLast_endsPunct text x
      (mem_dropLast_of_pair_sublist _ x y (hy.trans hsub))
  have hJfw : firstWs (joinSp sel) = false := by
    cases sel with
    | nil => exact absurd rfl hsel
    | cons x sel' =>
      rw [firstWs_joinSp x sel' (hall x (by simp)).2.1]
      exact (hall x (by simp)).2.2
  have hgl : endsWs (sel.getLast hsel) = false := by
    have hmem : sel.getLast hsel ∈ splitW text := hsub.subset (List.getLast_mem hsel)
    rcases mem_dropLast_or_getLast (splitW text) (splitW_ne_nil text) _ hmem with hd | hg
    · exact endsPunct_not_endsWs _ (splitW_dropLast_endsPunct text _ hd)
    · have hglq : (splitW text).getLast? = some (sel.getLast hsel) := by
        rw [List.getLast?_eq_getLast _ (splitW_ne_nil text), ← hg]
      exact (splitW_getLast text hne h2 _ hglq).2
  have hJew : endsWs (joinSp sel) = false := by
    rw [joinSp_endsWs sel hsel (fun x hx => (hall x hx).2.1)]
    exact hgl
  rw [pyStrip_id hJfw hJew]
  exact splitW_joinSp_exact sel hsel hall hdl

theorem summary_sel_len {text : List Char} (sel : List (List Char))
    (hsub : sel.Sublist (splitW text)) (hsel : sel ≠ []) :
    (splitW (pyStrip (joinSp sel))).length ≤ sel.length := by
  refine le_trans (splitW_pyStrip_len _) ?_
  exact splitW_joinSp_len sel hsel (fun x hx => splitW_noBoundary text x (hsub.subset hx))

/-! ### Theory of the stable insertion sort -/

theorem insBy_cons {α : Type} (later : α → α → Bool) (a b : α) (l : List α) :
    insBy later a (b :: l) = if later a b then b :: insBy later a l else a :: b :: l := rfl

theorem insBy_perm {α : Type} (later : α → α → Bool) (a : α) :
    ∀ l : List α, (insBy later a l).Perm (a :: l) := by
  intro l
  induction l with
  | nil => exact List.Perm.refl _
  | cons b l' ih =>
    rw [insBy_cons]
    by_cases h : later a b = true
    · rw [if_pos h]
      exact (List.Perm.cons b ih).trans (List.Perm.swap a b l')
    · rw [if_neg h]

theorem sortBy_perm {α : Type} (later : α → α → Bool) : ∀ l : List α, (sortBy later l).Perm l := by
  intro l
  induction l with
  | nil => exact List.Perm.refl _
  | cons a l' ih =>
    exact (insBy_perm later a (sortBy later l')).trans (List.Perm.cons a ih)

theorem insBy_sorted_score (a : Nat × List Char) (l : List (Nat × List Char))
    (hl : l.Pairwise (fun x y => y.1 ≤ x.1)) :
    (insBy scoreLater a l).Pairwise (fun x y => y.1 ≤ x.1) := by
  induction l with
  | nil => simp [insBy]
  | cons b l' ih =>
    rcases List.pairwise_cons.mp hl with ⟨hb, hl'⟩
    rw [insBy_cons]
    by_cases h : scoreLater a b = true
    · rw [if_pos h]
      refine List.pairwise_cons.mpr ⟨?_, ih hl'⟩
      intro x hx
      have hmem := (insBy_perm scoreLater a l').mem_iff.mp hx
      rcases List.mem_cons.mp hmem with rfl | hx'
      · exact le_of_lt (by simpa [scoreLater] using h)
      · exact hb x hx'
    · rw [if_neg h]
      have hba : b.1 ≤ a.1 := by
        have : ¬ a.1 < b.1 := by simpa [scoreLater] using h
        omega
      refine List.pairwise_cons.mpr ⟨?_, hl⟩
      intro x hx
      rcases List.mem_cons.mp hx with rfl | hx'
      · exact hba
      · exact le_trans (hb x hx') hba

theorem sortBy_sorted_score : ∀ l, (sortBy scoreLater l).Pairwise (fun x y => y.1 ≤ x.1) := by
  intro l
  induction l with
  | nil => simp [sortBy]
  | cons a l' ih => exact insBy_sorted_score a (sortBy scoreLater l') ih

theorem insBy_filter_score (a : Nat × List Char) (c : Nat) :
    ∀ l, (insBy scoreLater a l).filter (fun x => decide (x.1 = c))
      = (a :: l).filter (fun x => decide (x.1 = c)) := by
  intro l
  induction l with
  | nil => rfl
  | cons b l' ih =>
    rw [insBy_cons]
    by_cases h : scoreLater a b = true
    · rw [if_pos h]
      have hlt : a.1 < b.1 := by simpa [scoreLater] using h
      by_cases hb : b.1 = c
      · have ha : ¬ a.1 = c := by omega
        simp only [List.filter_cons, ih]
        simp [ha, hb]
      · simp only [List.filter_cons, ih]
        simp [hb]
    · rw [if_neg h]

theorem sortBy_filter_score (c : Nat) : ∀ l,
    (sortBy scoreLater l).filter (fun x => decide (x.1 = c))
      = l.filter (fun x => decide (x.1 = c)) := by
  intro l
  induction l with
  | nil => rfl
  | cons a l' ih =>
    have h1 := insBy_filter_score a c (sortBy scoreLater l')
    rw [show sortBy scoreLater (a :: l') = insBy scoreLater a (sortBy scoreLater l') from rfl]
    rw [h1]
    simp only [List.filter_cons, ih]

/-! ### Facts about the branches of `simple_extractive_summary` -/

theorem summary_branch_empty (k : Nat) : simple_extractive_summary [] k = [] := rfl

theorem summary_branch_few {text : List Char} {k : Nat} (hne : text.isEmpty = false)
    (hlen : (splitSentences text).length ≤ k) :
    simple_extractive_summary text k = pyStrip (joinSp (splitSentences text)) := by
  unfold simple_extractive_summary
  rw [if_neg (by simp [hne]), if_pos hlen]

theorem summary_branch_nofreq {text : List Char} {k : Nat} (hne : text.isEmpty = false)
    (hlen : ¬ (splitSentences text).length ≤ k) (hfreq : (filteredWords text).isEmpty = true) :
    simple_extractive_summary text k = pyStrip (joinSp ((splitSentences text).take k)) := by
  unfold simple_extractive_summary
  rw [if_neg (by simp [hne]), if_neg hlen, if_pos hfreq]

theorem summary_branch_scored {text : List Char} {k : Nat} (hne : text.isEmpty = false)
    (hlen : ¬ (splitSentences text).length ≤ k) (hfreq : (filteredWords text).isEmpty = false) :
    simple_extractive_summary text k = pyStrip (joinSp (orderedSel text k)) := by
  unfold simple_extractive_summary
  rw [if_neg (by simp [hne]), if_neg hlen, if_neg (by simp [hfreq])]

theorem orderedSel_sublist (text : List Char) (k : Nat) :
    (orderedSel text k).Sublist (splitSentences text) := List.filter_sublist _

theorem topSents_subset (text : List Char) (k : Nat) :
    ∀ s ∈ topSents text k, s ∈ splitSentences text := by
  intro s hs
  unfold topSents at hs
  rcases List.mem_map.mp hs with ⟨p, hp, hps⟩
  have hp2 : p ∈ sortBy scoreLater (sentScores text) := List.mem_of_mem_take hp
  have hp3 : p ∈ sentScores text := (sortBy_perm _ _).subset hp2
  unfold sentScores at hp3
  rcases List.mem_map.mp hp3 with ⟨s', hs', hEq⟩
  subst hEq
  subst hps
  exact hs'

theorem splitSentences_ne_nil (text : List Char) : splitSentences text ≠ [] := by
  rw [splitSentences_eq]
  exact splitW_ne_nil text

theorem orderedSel_ne_nil (text : List Char) (k : Nat) (hk : 1 ≤ k) :
    orderedSel text k ≠ [] := by
  cases hS : sortBy scoreLater (sentScores text) with
  | nil =>
    exfalso
    have hlen1 : (sortBy scoreLater (sentScores text)).length = (splitSentences text).length := by
      rw [(sortBy_perm scoreLater (sentScores text)).length_eq]
      unfold sentScores
      rw [List.length_map]
    rw [hS] at hlen1
    simp only [List.length_nil] at hlen1
    have := List.length_pos.mpr (splitSentences_ne_nil text)
    omega
  | cons p ps =>
    have hp : p ∈ (sortBy scoreLater (sentScores text)).take k := by
      rw [hS]
      cases k with
      | zero => omega
      | succ k' =>
        rw [List.take_succ_cons]
        exact List.mem_cons_self _ _
    have htop : p.2 ∈ topSents text k := by
      unfold topSents
      exact List.mem_map_of_mem _ hp
    have hsent : p.2 ∈ splitSentences text := topSents_subset _ _ _ htop
    intro hcon
    have hmem : p.2 ∈ orderedSel text k := by
      unfold orderedSel
      rw [List.mem_filter]
      exact ⟨hsent, by simpa using htop⟩
    rw [hcon] at hmem
    simp at hmem

theorem orderedSel_len_le (text : List Char) (k : Nat) (hnd : (splitSentences text).Nodup) :
    (orderedSel text k).length ≤ k := by
  have hsub : orderedSel text k ⊆ topSents text k := by
    intro x hx
    unfold orderedSel at hx
    have := (List.mem_filter.mp hx).2
    simpa using this
  have hnd2 : (orderedSel text k).Nodup := List.Nodup.filter _ hnd
  refine le_trans (hnd2.subperm hsub).length_le ?_
  unfold topSents
  rw [List.length_map]
  exact List.length_take_le _ _

/-- C1: the extractive summary, split back by the sentence rule, can exceed
`max_sentences` sentences when the text repeats a sentence verbatim: with
`max_sentences = 1` the text `"dog dog. dog dog. cat."` yields a summary that
splits back into 2 sentences, refuting the claim as stated. -/
theorem C1_counterexample :
    ¬ ((splitSentences (simple_extractive_summary exDup 1)).length ≤ 1) := by decide

/-- C1 (amended): for every max_sentences ≥ 1 and every text whose sentence
split is duplicate-free, the summary, split back by the same
sentence-boundary rule, has at most `max_sentences` sentences. -/
theorem C1_split_back_bound (text : List Char) (k : Nat) (hk : 1 ≤ k)
    (hnd : (splitSentences text).Nodup) :
    (splitSentences (simple_extractive_summary text k)).length ≤ k := by
  by_cases hne : text.isEmpty = true
  · have htxt : text = [] := by simpa using hne
    subst htxt
    rw [summary_branch_empty, splitSentences_eq, splitW_nil]
    simpa using hk
  · have hne' : text.isEmpty = false := by simpa using hne
    by_cases hlen : (splitSentences text).length ≤ k
    · rw [summary_branch_few hne' hlen, splitSentences_eq, splitSentences_eq]
      refine le_trans (summary_sel_len (splitW text) (List.Sublist.refl _) (splitW_ne_nil text)) ?_
      rw [← splitSentences_eq]
      exact hlen
    · by_cases hfreq : (filteredWords text).isEmpty = true
      · rw [summary_branch_nofreq hne' hlen hfreq, splitSentences_eq, splitSentences_eq]
        have htk : (splitW text).take k ≠ [] := by
          intro hcon
          rcases List.take_eq_nil_iff.mp hcon with h0 | h0
          · omega
          · exact splitW_ne_nil text h0
        refine le_trans (summary_sel_len ((splitW text).take k) (List.take_sublist _ _) htk) ?_
        exact List.length_take_le _ _
      · have hfreq' : (filteredWords text).isEmpty = false := by simpa using hfreq
        rw [summary_branch_scored hne' hlen hfreq', splitSentences_eq]
        have hsub : (orderedSel text k).Sublist (splitW text) := by
          rw [← splitSentences_eq]
          exact orderedSel_sublist text k
        refine le_trans (summary_sel_len (orderedSel text k) hsub (orderedSel_ne_nil text k hk)) ?_
        exact orderedSel_len_le text k hnd

/-- C1 witness: the amended bound at a concrete duplicate-free text. -/
theorem C1_split_back_bound_witness :
    (splitSentences (simple_extractive_summary exDistinct 1)).length ≤ 1 :=
  C1_split_back_bound exDistinct 1 (by decide) (by decide)

theorem take_ne_nil_of {α : Type} (k : Nat) (l : List α) (hk : 1 ≤ k) (hl : l ≠ []) :
    l.take k ≠ [] := by
  intro hcon
  rcases List.take_eq_nil_iff.mp hcon with h0 | h0
  · omega
  · exact hl h0

/-- C3: when the text has more sentences than `max_sentences` but the
frequency table is empty (every token a stopword or of length at most 2),
the summary is the first `max_sentences` sentences in original order, joined
by single spaces and trimmed. -/
theorem C3_empty_freq_fallback (text : List Char) (k : Nat)
    (hlen : k < (splitSentences text).length) (hfreq : filteredWords text = []) :
    simple_extractive_summary text k = pyStrip (joinSp ((splitSentences text).take k)) := by
  by_cases hne : text.isEmpty = true
  · have htxt : text = [] := by simpa using hne
    subst htxt
    have hk0 : k = 0 := by
      rw [splitSentences_eq, splitW_nil] at hlen
      simpa using hlen
    subst hk0
    rw [summary_branch_empty]
    rfl
  · exact summary_branch_nofreq (by simpa using hne) (by omega) (by simp [hfreq])

/-- C3 witness: `summarize("A. B. C. D.", 3)` returns `"A. B. C."`. -/
theorem C3_empty_freq_fallback_witness :
    simple_extractive_summary exLetters 3 = "A. B. C.".data :=
  (C3_empty_freq_fallback exLetters 3 (by decide) (by decide)).trans (by decide)

/-- C4: the claim fails on text with leading whitespace: summarizing `" a."`
strips the leading space, so the output splits into the sentence `"a."`,
which is not a verbatim sentence of the source, and the output sentence list
is not a subsequence of the source's sentence list. -/
theorem C4_counterexample :
    ¬ (splitSentences (simple_extractive_summary exLead 3)).Sublist (splitSentences exLead) := by
  intro h
  have hm : "a.".data ∈ splitSentences exLead := h.subset (by decide)
  exact absurd hm (by decide)

/-- C4 (amended): for every text without leading or trailing whitespace and
every `max_sentences ≥ 1`, the summary's sentence sequence is a subsequence
(by position, order preserved) of the text's sentence sequence; in
particular every output sentence is a verbatim sentence of the source. -/
theorem C4_output_sublist (text : List Char) (k : Nat) (hk : 1 ≤ k)
    (h1 : firstWs text = false) (h2 : endsWs text = false) :
    (splitSentences (simple_extractive_summary text k)).Sublist (splitSentences text) := by
  by_cases hne : text.isEmpty = true
  · have htxt : text = [] := by simpa using hne
    subst htxt
    rw [summary_branch_empty]
  · have hne' : text.isEmpty = false := by simpa using hne
    have htne : text ≠ [] := by
      intro hcon
      rw [hcon] at hne'
      simp at hne'
    by_cases hlen : (splitSentences text).length ≤ k
    · rw [summary_branch_few hne' hlen]
      simp only [splitSentences_eq]
      rw [summary_sel_splits htne h1 h2 (splitW text) (List.Sublist.refl _) (splitW_ne_nil text)]
    · by_cases hfreq : (filteredWords text).isEmpty = true
      · rw [summary_branch_nofreq hne' hlen hfreq]
        simp only [splitSentences_eq]
        have htk : (splitW text).take k ≠ [] := take_ne_nil_of k _ hk (splitW_ne_nil text)
        rw [summary_sel_splits htne h1 h2 ((splitW text).take k) (List.take_sublist _ _) htk]
        exact List.take_sublist _ _
      · have hfreq' : (filteredWords text).isEmpty = false := by simpa using hfreq
        rw [summary_branch_scored hne' hlen hfreq']
        simp only [splitSentences_eq]
        have hsub : (orderedSel text k).Sublist (splitW text) := by
          rw [← splitSentences_eq]
          exact orderedSel_sublist text k
        rw [summary_sel_splits htne h1 h2 (orderedSel text k) hsub (orderedSel_ne_nil text k hk)]
        exact hsub

/-- C4 witness: the amended subsequence property at a concrete trimmed text. -/
theorem C4_output_sublist_witness :
    (splitSentences (simple_extractive_summary exDistinct 1)).Sublist (splitSentences exDistinct) :=
  C4_output_sublist exDistinct 1 (by decide) (by decide) (by decide)

/-! ### C2: characterization of the scored selection -/

theorem map_snd_mk (f : List Char → Nat) :
    ∀ l : List (List Char), (l.map (fun s => (f s, s))).map Prod.snd = l := by
  intro l
  induction l with
  | nil => rfl
  | cons a l ih => simp [ih]

theorem sentScores_snd (text : List Char) :
    (sentScores text).map Prod.snd = splitSentences text :=
  map_snd_mk _ _

theorem sentScores_shape (text : List Char) :
    ∀ p ∈ sentScores text, p.1 = scoreOf (filteredWords text) p.2 ∧ p.2 ∈ splitSentences text := by
  intro p hp
  unfold sentScores at hp
  rcases List.mem_map.mp hp with ⟨s, hs, hEq⟩
  subst hEq
  exact ⟨rfl, hs⟩

theorem mem_orderedSel_iff (text : List Char) (k : Nat) :
    ∀ x, x ∈ orderedSel text k ↔ x ∈ topSents text k := by
  intro x
  unfold orderedSel
  rw [List.mem_filter]
  constructor
  · intro h
    have := h.2
    simpa using this
  · intro h
    exact ⟨topSents_subset _ _ _ h, by simpa using h⟩

theorem topSents_nodup (text : List Char) (k : Nat) (hnd : (splitSentences text).Nodup) :
    (topSents text k).Nodup := by
  have hperm : ((sortBy scoreLater (sentScores text)).map Prod.snd).Perm (splitSentences text) := by
    refine ((sortBy_perm scoreLater (sentScores text)).map Prod.snd).trans ?_
    rw [sentScores_snd]
  have hnd2 : ((sortBy scoreLater (sentScores text)).map Prod.snd).Nodup :=
    hperm.nodup_iff.mpr hnd
  unfold topSents
  rw [List.map_take]
  exact hnd2.sublist (List.take_sublist _ _)

theorem topSents_len (text : List Char) (k : Nat) (hlen : k < (splitSentences text).length) :
    (topSents text k).length = k := by
  unfold topSents
  rw [List.length_map, List.length_take]
  have hSL : (sortBy scoreLater (sentScores text)).length = (splitSentences text).length := by
    rw [(sortBy_perm _ _).length_eq]
    unfold sentScores
    rw [List.length_map]
  rw [hSL]
  omega

theorem orderedSel_perm_topSents (text : List Char) (k : Nat)
    (hnd : (splitSentences text).Nodup) :
    (orderedSel text k).Perm (topSents text k) := by
  refine (List.perm_ext_iff_of_nodup (List.Nodup.filter _ hnd) (topSents_nodup text k hnd)).mpr ?_
  intro a
  exact mem_orderedSel_iff text k a

/-- C2: for a text with more than `max_sentences` pairwise-distinct sentences
and a non-empty frequency table, the summary consists of exactly the
`max_sentences` sentences of greatest score — a tie won by the sentence
occurring earlier in the text — kept in their original order of occurrence
and joined by single spaces (then trimmed, as the source strips the result). -/
theorem C2_top_selection (text : List Char) (k : Nat)
    (hlen : k < (splitSentences text).length)
    (hnd : (splitSentences text).Nodup)
    (hfreq : filteredWords text ≠ []) :
    ∃ sel : List (List Char),
      sel.Sublist (splitSentences text) ∧
      sel.length = k ∧
      (∀ s ∈ sel, ∀ t ∈ splitSentences text, t ∉ sel →
        scoreOf (filteredWords text) t < scoreOf (filteredWords text) s ∨
        (scoreOf (filteredWords text) t = scoreOf (filteredWords text) s ∧
          [s, t].Sublist (splitSentences text))) ∧
      simple_extractive_summary text k = pyStrip (joinSp sel) := by
  have hfw : (filteredWords text).isEmpty = false := by
    cases h : (filteredWords text).isEmpty with
    | false => rfl
    | true => exact absurd (by simpa using h) hfreq
  have hne' : text.isEmpty = false := by
    cases text with
    | nil => exact absurd rfl hfreq
    | cons c l => rfl
  refine ⟨orderedSel text k, orderedSel_sublist text k, ?_, ?_, ?_⟩
  · rw [(orderedSel_perm_topSents text k hnd).length_eq]
    exact topSents_len text k hlen
  · intro s hs t ht hts
    have hsT : s ∈ topSents text k := (mem_orderedSel_iff text k s).mp hs
    have htT : t ∉ topSents text k := fun hcon => hts ((mem_orderedSel_iff text k t).mpr hcon)
    have hsT' : s ∈ ((sortBy scoreLater (sentScores text)).take k).map Prod.snd := hsT
    obtain ⟨ps, hpsTake, hps2⟩ := List.mem_map.mp hsT'
    have hpsSL : ps ∈ sortBy scoreLater (sentScores text) := List.mem_of_mem_take hpsTake
    have hpsShape := sentScores_shape text ps ((sortBy_perm _ _).subset hpsSL)
    have hptSS : (scoreOf (filteredWords text) t, t) ∈ sentScores text := by
      unfold sentScores
      exact List.mem_map_of_mem _ ht
    have hptSL : (scoreOf (filteredWords text) t, t) ∈ sortBy scoreLater (sentScores text) :=
      ((sortBy_perm _ _).mem_iff).mpr hptSS
    have hptDrop : (scoreOf (filteredWords text) t, t)
        ∈ (sortBy scoreLater (sentScores text)).drop k := by
      have hsplit := hptSL
      rw [← List.take_append_drop k (sortBy scoreLater (sentScores text))] at hsplit
      rcases List.mem_append.mp hsplit with h1 | h1
      · exact absurd (List.mem_map_of_mem Prod.snd h1) htT
      · exact h1
    have hpw : ∀ a ∈ (sortBy scoreLater (sentScores text)).take k,
        ∀ b ∈ (sortBy scoreLater (sentScores text)).drop k, b.1 ≤ a.1 := by
      have hsort := sortBy_sorted_score (sentScores text)
      rw [← List.take_append_drop k (sortBy scoreLater (sentScores text))] at hsort
      exact (List.pairwise_append.mp hsort).2.2
    have hle : scoreOf (filteredWords text) t ≤ ps.1 := hpw ps hpsTake _ hptDrop
    rw [hpsShape.1, hps2] at hle
    rcases lt_or_eq_of_le hle with hlt | heq
    · exact Or.inl hlt
    · refine Or.inr ⟨heq, ?_⟩
      have hps_pair : [ps, (scoreOf (filteredWords text) t, t)].Sublist
          (sortBy scoreLater (sentScores text)) := by
        have h1 : [ps].Sublist ((sortBy scoreLater (sentScores text)).take k) :=
          List.singleton_sublist.mpr hpsTake
        have h2 : [(scoreOf (filteredWords text) t, t)].Sublist
            ((sortBy scoreLater (sentScores text)).drop k) :=
          List.singleton_sublist.mpr hptDrop
        have h3 := h1.append h2
        rw [List.take_append_drop] at h3
        exact h3
      have hps1 : ps.1 = scoreOf (filteredWords text) s := by rw [hpsShape.1, hps2]
      have hfilter : [ps, (scoreOf (filteredWords text) t, t)].filter
          (fun x => decide (x.1 = scoreOf (filteredWords text) s))
          = [ps, (scoreOf (filteredWords text) t, t)] := by
        simp [List.filter_cons, hps1, heq]
      have hsubF := List.Sublist.filter
        (fun x => decide (x.1 = scoreOf (filteredWords text) s)) hps_pair
      rw [hfilter, sortBy_filter_score (scoreOf (filteredWords text) s) (sentScores text)] at hsubF
      have hsubSS : [ps, (scoreOf (filteredWords text) t, t)].Sublist (sentScores text) :=
        hsubF.trans (List.filter_sublist _)
      have hsubSS' : [ps, (scoreOf (filteredWords text) t, t)].Sublist
          ((splitSentences text).map (fun s => (scoreOf (filteredWords text) s, s))) := hsubSS
      rcases List.sublist_map_iff.mp hsubSS' with ⟨l', hl', hmap⟩
      cases l' with
      | nil => simp at hmap
      | cons a l'' =>
        cases l'' with
        | nil => simp at hmap
        | cons b l''' =>
          cases l''' with
          | cons e l4 => simp at hmap
          | nil =>
            simp only [List.map_cons, List.map_nil] at hmap
            injection hmap with h1 hrest
            injection hrest with h2 hnil
            have ha : a = s := by
              have h5 := congrArg Prod.snd h1
              have h6 : s = a := by simpa [hps2] using h5
              exact h6.symm
            have hb : b = t := by
              have h5 := congrArg Prod.snd h2
              have h6 : t = b := by simpa using h5
              exact h6.symm
            subst ha
            subst hb
            exact hl'
  · have hnle : ¬ (splitSentences text).length ≤ k := by omega
    exact summary_branch_scored hne' hnle hfw

/-- C2 witness: the characterization applied to a concrete text with three
distinct sentences and `max_sentences = 1`. -/
theorem C2_top_selection_witness :
    ∃ sel : List (List Char),
      sel.Sublist (splitSentences exDistinct) ∧
      sel.length = 1 ∧
      (∀ s ∈ sel, ∀ t ∈ splitSentences exDistinct, t ∉ sel →
        scoreOf (filteredWords exDistinct) t < scoreOf (filteredWords exDistinct) s ∨
        (scoreOf (filteredWords exDistinct) t = scoreOf (filteredWords exDistinct) s ∧
          [s, t].Sublist (splitSentences exDistinct))) ∧
      simple_extractive_summary exDistinct 1 = pyStrip (joinSp sel) :=
  C2_top_selection exDistinct 1 (by decide) (by decide) (by decide)

/-! ### Orchestrator claims -/

theorem truthy_some_of_ne {t : List Char} (ht : t ≠ []) : truthy (some t) = true := by
  cases t with
  | nil => exact absurd rfl ht
  | cons c l => rfl

theorem processUrl_url (fetch : List Char → Option (List Char)) (extract : List Char → PageInfo)
    (gemini : List Char → Option (List Char)) (ug : Bool) (key api : Option (List Char))
    (u : List Char) : (processUrl fetch extract gemini ug key api u).url = u := by
  unfold processUrl
  split
  · rfl
  · split
    · split
      · rfl
      · rfl
    · rfl

theorem processUrl_fetch_failed (fetch : List Char → Option (List Char))
    (extract : List Char → PageInfo) (gemini : List Char → Option (List Char)) (ug : Bool)
    (key api : Option (List Char)) (u : List Char) (hf : truthy (fetch u) = false) :
    processUrl fetch extract gemini ug key api u = ⟨u, [], [], [], noteFetchFailed⟩ := by
  unfold processUrl
  rw [hf]
  simp

theorem processUrl_external (fetch : List Char → Option (List Char))
    (extract : List Char → PageInfo) (gemini : List Char → Option (List Char))
    (key api : Option (List Char)) (u t : List Char)
    (hfetch : truthy (fetch u) = true) (hkey : truthy key = true) (hapi : truthy api = true)
    (hg : gemini (buildPrompt (extract ((fetch u).getD [])).title
      (extract ((fetch u).getD [])).meta_description
      (extract ((fetch u).getD [])).text_preview) = some t) (ht : t ≠ []) :
    processUrl fetch extract gemini true key api u =
      ⟨u, (extract ((fetch u).getD [])).title,
        (extract ((fetch u).getD [])).meta_description, t, noteGenerated⟩ := by
  unfold processUrl call_gemini_api
  rw [hfetch, hkey, hapi]
  simp only [Bool.not_true, Bool.false_eq_true, if_false, Bool.and_self, Bool.true_and,
    Bool.or_self, if_true]
  rw [hg, truthy_some_of_ne ht]
  simp

/-- C5: the claim fails when the External Client returns the empty string as
a non-absent value: `if summary:` is a truthiness test, so the orchestrator
records `gemini_failed_fallback_extractive` instead of
`generated_by_gemini`. -/
theorem C5_counterexample :
    ¬ ((summarize_urls fetchSome extractNil geminiEmpty true (some ("k".data))
        (some ("u".data)) [("a".data)]).map SummaryResult.notes = [noteGenerated]) := by decide

/-- C5 (amended): for every URL of the input whose fetch succeeds, when
`use_gemini` is true, key and endpoint are both present, and the External
Client returns a non-absent, non-empty text for the page's prompt, the
recorded result carries that text as its summary with notes
`generated_by_gemini` (no extractive fallback). -/
theorem C5_external_success (fetch : List Char → Option (List Char))
    (extract : List Char → PageInfo) (gemini : List Char → Option (List Char))
    (key api : Option (List Char)) (urls : List (List Char)) (i : Nat) (u t : List Char)
    (hu : urls[i]? = some u)
    (hfetch : truthy (fetch u) = true)
    (hkey : truthy key = true) (hapi : truthy api = true)
    (hg : gemini (buildPrompt (extract ((fetch u).getD [])).title
      (extract ((fetch u).getD [])).meta_description
      (extract ((fetch u).getD [])).text_preview) = some t)
    (ht : t ≠ []) :
    (summarize_urls fetch extract gemini true key api urls)[i]? =
      some ⟨u, (extract ((fetch u).getD [])).title,
        (extract ((fetch u).getD [])).meta_description, t, noteGenerated⟩ := by
  unfold summarize_urls
  rw [List.getElem?_map, hu]
  rw [Option.map_some']
  rw [processUrl_external fetch extract gemini key api u t hfetch hkey hapi hg ht]

/-- C5 witness: the amended claim at a concrete run with one URL. -/
theorem C5_external_success_witness :
    (summarize_urls fetchSome extractNil geminiText true (some ("k".data)) (some ("u".data))
      [("a".data)])[0]? = some ⟨"a".data, [], [], "ok".data, noteGenerated⟩ :=
  C5_external_success fetchSome extractNil geminiText (some ("k".data)) (some ("u".data))
    [("a".data)] 0 ("a".data) ("ok".data) rfl (by decide) (by decide) (by decide) rfl (by decide)

/-- C6: the orchestrator returns exactly one result per input URL, in input
order (the i-th result's url is the i-th input), and a URL whose fetch
returns no content yields the record with empty title, meta description and
summary and notes `fetch_failed`. -/
theorem C6_order_and_fetch_failed (fetch : List Char → Option (List Char))
    (extract : List Char → PageInfo) (gemini : List Char → Option (List Char)) (ug : Bool)
    (key api : Option (List Char)) (urls : List (List Char)) :
    (summarize_urls fetch extract gemini ug key api urls).length = urls.length ∧
    ∀ (i : Nat) (u : List Char), urls[i]? = some u →
      (∀ r, (summarize_urls fetch extract gemini ug key api urls)[i]? = some r → r.url = u) ∧
      (truthy (fetch u) = false →
        (summarize_urls fetch extract gemini ug key api urls)[i]? =
          some ⟨u, [], [], [], noteFetchFailed⟩) := by
  constructor
  · unfold summarize_urls
    exact List.length_map _ _
  · intro i u hu
    constructor
    · intro r hr
      unfold summarize_urls at hr
      rw [List.getElem?_map, hu, Option.map_some'] at hr
      injection hr with hr
      subst hr
      exact processUrl_url fetch extract gemini ug key api u
    · intro hf
      unfold summarize_urls
      rw [List.getElem?_map, hu, Option.map_some']
      rw [processUrl_fetch_failed fetch extract gemini ug key api u hf]

/-- C6 witness: a concrete two-URL run where the fetch fails. -/
theorem C6_order_and_fetch_failed_witness :
    (summarize_urls fetchNone extractNil geminiText true (some ("k".data)) (some ("u".data))
      [("a".data)])[0]? = some ⟨"a".data, [], [], [], noteFetchFailed⟩ :=
  ((C6_order_and_fetch_failed fetchNone extractNil geminiText true (some ("k".data))
    (some ("u".data)) [("a".data)]).2 0 ("a".data) rfl).2 (by decide)

/-! ### Log analyzer claims -/

theorem sum_map_add (g h : List Char → ℚ) : ∀ keys : List (List Char),
    (keys.map (fun k => g k + h k)).sum = (keys.map g).sum + (keys.map h).sum := by
  intro keys
  induction keys with
  | nil => simp
  | cons k0 keys' ih =>
    simp only [List.map_cons, List.sum_cons, ih]
    ring

theorem sum_map_ite_zero (x : List Char) (v : ℚ) : ∀ keys : List (List Char), x ∉ keys →
    (keys.map (fun k => if x = k then v else 0)).sum = 0 := by
  intro keys
  induction keys with
  | nil => intro _; rfl
  | cons k0 keys' ih =>
    intro hx
    simp only [List.map_cons, List.sum_cons]
    rw [if_neg (fun hcon => hx (by rw [hcon]; exact List.mem_cons_self _ _)), zero_add]
    exact ih (fun hmem => hx (List.mem_cons_of_mem _ hmem))

theorem sum_map_ite (x : List Char) (v : ℚ) : ∀ keys : List (List Char), keys.Nodup →
    x ∈ keys → (keys.map (fun k => if x = k then v else 0)).sum = v := by
  intro keys
  induction keys with
  | nil => intro _ h; simp at h
  | cons k0 keys' ih =>
    intro hnd hmem
    rcases List.mem_cons.mp hmem with rfl | hmem'
    · simp only [List.map_cons, List.sum_cons]
      rw [sum_map_ite_zero _ v keys' (List.nodup_cons.mp hnd).1, add_zero]
      simp
    · have hx0 : ¬ x = k0 := by
        intro hcon
        subst hcon
        exact (List.nodup_cons.mp hnd).1 hmem'
      simp only [List.map_cons, List.sum_cons, if_neg hx0, zero_add]
      exact ih (List.nodup_cons.mp hnd).2 hmem'

theorem sum_filter_partition (key : CoRecord → List Char) (keys : List (List Char)) :
    ∀ l : List CoRecord, keys.Nodup → (∀ r ∈ l, key r ∈ keys) →
    (keys.map (fun u => sumDur (l.filter (fun c => decide (key c = u))))).sum = sumDur l := by
  intro l
  induction l with
  | nil =>
    intro _ _
    simp [sumDur]
  | cons c l' ih =>
    intro hnd hcov
    have hsplit : ∀ u, sumDur ((c :: l').filter (fun r => decide (key r = u)))
        = (if key c = u then durOf c else 0)
          + sumDur (l'.filter (fun r => decide (key r = u))) := by
      intro u
      rw [List.filter_cons]
      by_cases h : key c = u
      · rw [if_pos (by simp [h]), if_pos h]
        simp [sumDur]
      · rw [if_neg (by simp [h]), if_neg h, zero_add]
    have hstep : (keys.map (fun u => sumDur ((c :: l').filter (fun r => decide (key r = u))))).sum
        = (keys.map (fun u => (if key c = u then durOf c else 0)
            + sumDur (l'.filter (fun r => decide (key r = u))))).sum := by
      congr 1
      exact List.map_congr_left (fun u _ => hsplit u)
    rw [hstep, sum_map_add]
    rw [sum_map_ite (key c) (durOf c) keys hnd (hcov c (List.mem_cons_self _ _))]
    rw [ih hnd (fun r hr => hcov r (List.mem_cons_of_mem _ hr))]
    simp [sumDur]

theorem groupSum_total (key : CoRecord → List Char) (l : List CoRecord) :
    ((groupSum key l).map Prod.snd).sum = sumDur l := by
  unfold groupSum
  rw [List.map_map]
  have hnd : (sortBy (fun a b => !lexLe a b) ((l.map key).dedup)).Nodup :=
    ((sortBy_perm _ _).nodup_iff).mpr (List.nodup_dedup _)
  have hcov : ∀ r ∈ l, key r ∈ sortBy (fun a b => !lexLe a b) ((l.map key).dedup) :=
    fun r hr => ((sortBy_perm _ _).mem_iff).mpr (List.mem_dedup.mpr (List.mem_map_of_mem key hr))
  exact sum_filter_partition key _ l hnd hcov

/-- C7: no invalid record's duration reaches any aggregate: the per-task
totals and the per-user totals of `analyze` each sum to the total duration of
the valid rows, hence to each other. -/
theorem C7_totals_balance (pt : List Char → Option Nat) (pn : List Char → Option ℚ)
    (records : List RawRecord) :
    (((analyze pt pn records).time_per_task).map Prod.snd).sum = sumDur (validRows pt pn records)
    ∧ (((analyze pt pn records).time_per_user).map Prod.snd).sum = sumDur (validRows pt pn records)
    ∧ (((analyze pt pn records).time_per_task).map Prod.snd).sum
        = (((analyze pt pn records).time_per_user).map Prod.snd).sum := by
  refine ⟨groupSum_total _ _, groupSum_total _ _, ?_⟩
  rw [show (analyze pt pn records).time_per_task
    = groupSum (fun c => c.task_type) (validRows pt pn records) from rfl]
  rw [show (analyze pt pn records).time_per_user
    = groupSum (fun c => c.user) (validRows pt pn records) from rfl]
  rw [groupSum_total, groupSum_total]

/-- C8: evaluation at the failing input: the record
`("alice","build","bad-date","20")` is classified invalid, but `invalid_rows`
stores the coerced row — its `start` is the absent marker (NaT), no longer
the original string `"bad-date"` — and carries no reason tags, contradicting
the claim's (and the source comment's) "preserved verbatim". -/
theorem C8_invalid_rows_coerced :
    (analyze ptSample pnSample [recBadTs]).invalid_rows
        = [coerceRec ptSample pnSample recBadTs]
    ∧ (coerceRec ptSample pnSample recBadTs).start = none
    ∧ recBadTs.start = "bad-date".data := by decide

/-- C9: feeding `time_per_task` back through the ranking step (stable sort
descending by total_minutes, take 3) reproduces `top3_tasks` exactly. -/
theorem C9_rank_round_trip (pt : List Char → Option Nat) (pn : List Char → Option ℚ)
    (records : List RawRecord) :
    rankTop3 ((analyze pt pn records).time_per_task) = (analyze pt pn records).top3_tasks := rfl

/-- C10: on a `.txt` input, `read_urls` returns exactly the
whitespace-stripped non-blank lines that do not begin with `'#'`, in file
order. -/
theorem C10_read_urls_txt (lines : List (List Char)) :
    read_urls_txt lines
      = (lines.map pyStrip).filter (fun s => !s.isEmpty && !headIsHash s) := by
  induction lines with
  | nil => rfl
  | cons a lines' ih =>
    unfold read_urls_txt
    rw [List.filterMap_cons, List.map_cons, List.filter_cons]
    by_cases h1 : (pyStrip a).isEmpty = true
    · simp only [h1, if_true]
      rw [if_neg (by simp [h1])]
      exact ih
    · have h1' : (pyStrip a).isEmpty = false := by simpa using h1
      by_cases h2 : headIsHash (pyStrip a) = true
      · simp only [h1', Bool.false_eq_true, if_false, h2, if_true]
        rw [if_neg (by simp [h2])]
        exact ih
      · have h2' : headIsHash (pyStrip a) = false := by simpa using h2
        simp only [h1', Bool.false_eq_true, if_false, h2', if_false]
        rw [if_pos (by simp [h1', h2'])]
        exact congrArg (List.cons (pyStrip a)) ih
